import Mathlib

/-!
Verification model of the toydb-python repository: an LSM-tree key/value
store (`src/lsm.py`, `LSMTree/src/{memtable,sstable,wal}.py`), a disk-backed
B+ tree index (`BPlusTreeIndex/b_plus_tree_index.py`) and an in-memory
B+ tree (`BPlusTree/b_plus_tree.py`).

Keys are Python strings (LSM) / byte strings (B+ index); both compare
lexicographically by code point, so both are modelled as `List Nat` with
the lexicographic order `bLt`.  Python `None` values (tombstones) are
modelled as `Option Val` with `none` for `None`.
-/

namespace ToyDB

/-- Values stored by the LSM store are opaque payloads; modelled as `Nat`. -/
abbrev Val := Nat

/-- A Python string / byte string, as its list of code points. -/
abbrev Key := List Nat

/-- Code points of a Lean string literal, used to write keys and file
names readably. -/
def strBytes (s : String) : List Nat := s.data.map Char.toNat

/-- Lexicographic strict order on byte strings, exactly Python's `<` on
`str`/`bytes`: element-wise comparison, a strict prefix is smaller. -/
def bLt : List Nat → List Nat → Bool
  | [], [] => false
  | [], _ :: _ => true
  | _ :: _, [] => false
  | a :: as, b :: bs =>
    if a < b then true else if b < a then false else bLt as bs

/-- Python's `<=` on strings: `a <= b` iff `a < b` or `a = b`. -/
def bLe (a b : List Nat) : Bool := bLt a b || a == b

/-- `bisect.bisect_left` on the key list: index of the first element not
smaller than `k` (equals Python's binary search on a sorted list). -/
def bisectLeft (ks : List Key) (k : Key) : Nat :=
  match ks with
  | [] => 0
  | a :: t => if bLt a k then bisectLeft t k + 1 else 0

/-- `bisect.bisect_right` on the key list: index of the first element
strictly greater than `k`. -/
def bisectRight (ks : List Key) (k : Key) : Nat :=
  match ks with
  | [] => 0
  | a :: t => if bLt k a then 0 else bisectRight t k + 1

/-- Python dict assignment `d[k] = v` on an association list. -/
def dictSet (d : List (Key × Option Val)) (k : Key) (v : Option Val) :
    List (Key × Option Val) :=
  if (d.lookup k).isSome then
    d.map (fun e => if e.1 = k then (k, v) else e)
  else d ++ [(k, v)]

/-- Python `d.pop(k, None)` on an association list. -/
def dictPop (d : List (Key × Option Val)) (k : Key) :
    List (Key × Option Val) :=
  d.filter (fun e => e.1 ≠ k)

/-- Insertion into a list sorted by `le` (helper for modelling Python's
`sorted`). -/
def insSorted (le : List Nat → List Nat → Bool) (a : List Nat) :
    List (List Nat) → List (List Nat)
  | [] => [a]
  | b :: t => if le a b then a :: b :: t else b :: insSorted le a t

/-- Python's `sorted` on a list of byte strings (insertion sort; `sorted`
is stable, and so is insertion sort). -/
def sortB (l : List (List Nat)) : List (List Nat) :=
  l.foldr (insSorted bLe) []

/-! ### MemTable (`LSMTree/src/memtable.py`)

`MemTable.__init__(max_size=1000)`; `_compact` builds one with
`max_size=float("inf")`, modelled as `maxSize = none` (so `is_full` is
always false, as any `>= inf` comparison is). -/

/-- `MemTable`: a list of `(key, value)` entries plus the capacity bound. -/
structure MemTable where
  entries : List (Key × Option Val)
  maxSize : Option Nat
  deriving DecidableEq, Repr

/-- The body of `MemTable.add` on the entry list: `bisect_left` on the
keys, then overwrite in place if the key at that index matches, else
insert at the position. -/
def entriesAdd (l : List (Key × Option Val)) (k : Key) (v : Option Val) :
    List (Key × Option Val) :=
  let idx := bisectLeft (l.map Prod.fst) k
  match l.get? idx with
  | some e =>
    if e.1 = k then l.set idx (k, v)
    else l.insertIdx idx (k, v)
  | none => l.insertIdx idx (k, v)

/-- `MemTable.add`. -/
def MemTable.add (m : MemTable) (k : Key) (v : Option Val) : MemTable :=
  { m with entries := entriesAdd m.entries k v }

/-- The body of `MemTable.get` on the entry list: `bisect_left`, then
return the stored value on an exact key match and `None` otherwise.  A
stored tombstone (`None` value) is returned as `none`, indistinguishable
from absence — exactly as in the source, whose `get` returns
`self.entries[idx][1]` unconditionally. -/
def entriesGet (l : List (Key × Option Val)) (k : Key) : Option Val :=
  let idx := bisectLeft (l.map Prod.fst) k
  match l.get? idx with
  | some e => if e.1 = k then e.2 else none
  | none => none

/-- `MemTable.get`. -/
def MemTable.get (m : MemTable) (k : Key) : Option Val :=
  entriesGet m.entries k

/-- `MemTable.is_full`: `len(entries) >= max_size` (always false for the
`float("inf")` capacity used during compaction). -/
def MemTable.isFull (m : MemTable) : Bool :=
  match m.maxSize with
  | some n => m.entries.length ≥ n
  | none => false

/-- Python slice `l[s:e]`. -/
def slice {α} (l : List α) (s e : Nat) : List α := (l.drop s).take (e - s)

/-- `MemTable.range_scan`: `entries[bisect_left(keys, start) :
bisect_right(keys, end)]`. -/
def MemTable.rangeScan (m : MemTable) (lo hi : Key) :
    List (Key × Option Val) :=
  slice m.entries (bisectLeft (m.entries.map Prod.fst) lo)
    (bisectRight (m.entries.map Prod.fst) hi)

/-! ### SSTable (`LSMTree/src/sstable.py`)

An SSTable file is a data region of pickled `(key, value)` records plus a
key → offset index; observably it is the finite map sending each indexed
key to its stored record, which is what the model keeps.  `get` opens the
file and reads the record at the indexed offset; files are immutable once
written, so the handle's `content` below is both the index and the file. -/

/-- An SSTable handle: file name plus the stored `(key, value)` records. -/
structure SST where
  name : List Nat
  content : List (Key × Option Val)
  deriving DecidableEq, Repr

/-- Read a record through an index: `None` when the key is absent, else
the stored value (which may itself be `None`). -/
def assocGet (l : List (Key × Option Val)) (k : Key) : Option Val :=
  match l.lookup k with
  | some v => v
  | none => none

/-- `SSTable.get`: `None` when the key is not in the index, else the stored
value — which is itself `None` for a stored tombstone, again collapsing
"absent" and "deleted". -/
def SST.get (t : SST) (k : Key) : Option Val :=
  assocGet t.content k

/-- `SSTable.range_scan`: sort the index keys within `[lo, hi]`, look each
one up, and yield only pairs whose value `is not None`. -/
def SST.rangeScan (t : SST) (lo hi : Key) : List (Key × Option Val) :=
  let keys := sortB (((t.content.map Prod.fst)).filter
    (fun k => bLe lo k && bLe k hi))
  keys.filterMap (fun k =>
    match t.get k with
    | some v => some (k, some v)
    | none => none)

/-! ### WAL + snapshot controller (`LSMTree/src/wal.py`) and the on-disk
state of one LSM base directory.

A `WALEntry` carries `(timestamp, operation, key, value)`; the timestamp
is diagnostic only (per the spec) and is omitted from the model. -/

/-- WAL operation kind: `"set"` or `"delete"`. -/
inductive WalOp
  | setOp
  | delOp
  deriving DecidableEq, Repr

/-- One WAL line `{operation, key, value}` (timestamp omitted). -/
structure WalRec where
  op : WalOp
  key : Key
  value : Option Val
  deriving DecidableEq, Repr

/-- The base directory on disk: `data.db` (pickled dict, if present),
`wal.log` (list of JSON lines), and the `sstable_*.db` files. -/
structure Disk where
  dataFile : Option (List (Key × Option Val))
  walFile : List WalRec
  sstFiles : List (List Nat × List (Key × Option Val))
  deriving DecidableEq, Repr

/-- A directory with none of the files yet. -/
def emptyDisk : Disk := ⟨none, [], []⟩

/-- Write (create or overwrite) an SSTable file in the directory. -/
def Disk.writeSST (d : Disk) (n : List Nat) (c : List (Key × Option Val)) :
    Disk :=
  if (d.sstFiles.lookup n).isSome then
    { d with sstFiles :=
        d.sstFiles.map (fun e => if e.1 = n then (n, c) else e) }
  else { d with sstFiles := d.sstFiles ++ [(n, c)] }

/-- `os.remove` of an SSTable file. -/
def Disk.removeSST (d : Disk) (n : List Nat) : Disk :=
  { d with sstFiles := d.sstFiles.filter (fun e => e.1 ≠ n) }

/-- `WALStore._recover`: load `data.db` if present, then replay the WAL in
file order — `set` stores the value (a tombstone stays a binding to
`None`), `delete` pops the key. -/
def recoverData (d : Disk) : List (Key × Option Val) :=
  d.walFile.foldl
    (fun m r =>
      match r.op with
      | .setOp => dictSet m r.key r.value
      | .delOp => dictPop m r.key)
    (d.dataFile.getD [])

/-! ### LSMTree driver (`src/lsm.py`) -/

/-- The in-memory `WALStore` object: its `data` dict (the file fields live
in `Disk`). -/
structure WALStore where
  data : List (Key × Option Val)
  deriving DecidableEq, Repr

/-- The full LSM store state: directory contents plus the `LSMTree`
object's memtable, SSTable handle list (oldest first) and `WALStore`.
`max_sstables` is fixed at 5 in `LSMTree.__init__`. -/
structure LSM where
  disk : Disk
  memtable : MemTable
  sstables : List SST
  wal : WALStore
  deriving DecidableEq, Repr

/-- `WALStore.set`: append a `set` line to the WAL (with fsync), then
update the in-memory dict. -/
def walSet (s : LSM) (k : Key) (v : Option Val) : LSM :=
  { s with
    disk := { s.disk with walFile := s.disk.walFile ++ [⟨.setOp, k, v⟩] }
    wal := ⟨dictSet s.wal.data k v⟩ }

/-- `WALStore.delete`: append a `delete` line, then pop the key. -/
def walDelete (s : LSM) (k : Key) : LSM :=
  { s with
    disk := { s.disk with walFile := s.disk.walFile ++ [⟨.delOp, k, none⟩] }
    wal := ⟨dictPop s.wal.data k⟩ }

/-- `WALStore.checkpoint`: atomically replace `data.db` with the in-memory
dict, then truncate the WAL. -/
def walCheckpoint (s : LSM) : LSM :=
  { s with disk := { s.disk with dataFile := some s.wal.data, walFile := [] } }

/-- `f"sstable_{n}.db"`. -/
def sstableName (n : Nat) : List Nat :=
  strBytes "sstable_" ++ (Nat.toDigits 10 n).map Char.toNat ++ strBytes ".db"

/-- The fixed name `sstable_compacted.db` written by `_compact`. -/
def compactedName : List Nat := strBytes "sstable_compacted.db"

/-- `range_scan("", "~")` as issued by `_compact`. -/
def tildeKey : Key := strBytes "~"

/-- `LSMTree._compact`: merge every SSTable's `range_scan("", "~")` into an
unbounded memtable, oldest to newest so that later tables overwrite; write
the result to `sstable_compacted.db`; replace the handle list; remove the
old files. -/
def lsmCompact (s : LSM) : LSM :=
  let merged : MemTable := s.sstables.foldl
    (fun m t => (t.rangeScan [] tildeKey).foldl
      (fun m e => m.add e.1 e.2) m)
    ⟨[], none⟩
  let newT : SST := ⟨compactedName, merged.entries⟩
  let oldNames := s.sstables.map SST.name
  let d1 := s.disk.writeSST compactedName merged.entries
  { s with
    disk := oldNames.foldl Disk.removeSST d1
    sstables := [newT] }

/-- `LSMTree._flush_memtable`: skip when empty; else write the memtable to
`sstable_{len(sstables)}.db`, append the handle, reset the memtable (the
`MemTable()` default capacity is 1000), checkpoint the WAL, and compact
when more than `max_sstables = 5` tables exist. -/
def flushMemtable (s : LSM) : LSM :=
  if s.memtable.entries = [] then s
  else
    let name := sstableName s.sstables.length
    let s1 : LSM :=
      { s with
        disk := s.disk.writeSST name s.memtable.entries
        sstables := s.sstables ++ [⟨name, s.memtable.entries⟩]
        memtable := ⟨[], some 1000⟩ }
    let s2 := walCheckpoint s1
    if s2.sstables.length > 5 then lsmCompact s2 else s2

/-- `LSMTree.set`: journal to the WAL store, insert into the memtable, and
flush when the memtable is full.  (The non-string-key check cannot fire in
the model, where every key is a string.) -/
def lsmSet (s : LSM) (k : Key) (v : Option Val) : LSM :=
  let s1 := walSet s k v
  let s2 := { s1 with memtable := s1.memtable.add k v }
  if s2.memtable.isFull then flushMemtable s2 else s2

/-- `LSMTree.delete`: journal a WAL `delete`, then `set(key, None)`. -/
def lsmDelete (s : LSM) (k : Key) : LSM :=
  lsmSet (walDelete s k) k none

/-- Probe the SSTables in the given order, returning the first value that
`is not None` (the loop body of `LSMTree.get`). -/
def probeTables : List SST → Key → Option Val
  | [], _ => none
  | t :: rest, k =>
    match t.get k with
    | some v => some v
    | none => probeTables rest k

/-- `LSMTree.get`: the memtable first — a hit only when the stored value
`is not None` — then the SSTables newest to oldest. -/
def lsmGet (s : LSM) (k : Key) : Option Val :=
  match s.memtable.get k with
  | some v => some v
  | none => probeTables s.sstables.reverse k

/-- One SSTable's contribution to `range_query`: walk its `range_scan`
output, skipping keys already seen, marking each new key seen, and
emitting it when its value `is not None`.  Returns the emitted pairs and
the grown seen set. -/
def scanSeen : List (Key × Option Val) → List Key →
    List (Key × Option Val) × List Key
  | [], seen => ([], seen)
  | (k, v) :: rest, seen =>
    if k ∈ seen then scanSeen rest seen
    else
      let r := scanSeen rest (k :: seen)
      (if v ≠ none then (k, v) :: r.1 else r.1, r.2)

/-- The SSTable half of `range_query`: tables newest first, one shared
seen-keys set. -/
def tablesRange : List SST → Key → Key → List Key →
    List (Key × Option Val)
  | [], _, _, _ => []
  | t :: rest, lo, hi, seen =>
    let r := scanSeen (t.rangeScan lo hi) seen
    r.1 ++ tablesRange rest lo hi r.2

/-- `LSMTree.range_query`: every memtable entry in range (unfiltered —
tombstones included, keys not marked seen), then the SSTables newest
first under the seen-keys set. -/
def lsmRange (s : LSM) (lo hi : Key) : List (Key × Option Val) :=
  s.memtable.rangeScan lo hi ++ tablesRange s.sstables.reverse lo hi []

/-- `LSMTree.close`: flush a non-empty memtable, then checkpoint. -/
def lsmClose (s : LSM) : LSM :=
  walCheckpoint (if s.memtable.entries = [] then s else flushMemtable s)

/-- Glob `sstable_*.db`: name starts with `sstable_` and ends with `.db`. -/
def globSST (n : List Nat) : Bool :=
  (strBytes "sstable_").isPrefixOf n && (strBytes ".db").isSuffixOf n

/-- `LSMTree._load_sstables`: the matching files in lexicographically
sorted name order, each opened as a handle (loading its index). -/
def loadSSTables (d : Disk) : List SST :=
  (sortB ((d.sstFiles.map Prod.fst).filter globSST)).map
    (fun n => ⟨n, (d.sstFiles.lookup n).getD []⟩)

/-- `LSMTree.__init__` on an existing base path: fresh empty memtable
(capacity 1000), recover the `WALStore`, load the SSTables, and compact
when more than `max_sstables` of them exist.  The recovered `WALStore`
data is never copied into the memtable. -/
def lsmOpen (d : Disk) : LSM :=
  let s : LSM := ⟨d, ⟨[], some 1000⟩, loadSSTables d, ⟨recoverData d⟩⟩
  if s.sstables.length > 5 then lsmCompact s else s

/-! ### Disk B+ tree index (`BPlusTreeIndex/b_plus_tree_index.py`)

Keys are byte strings (`List Nat`); values are u32 record IDs.  A page is
either a leaf (keys, values, `next_page`) or an internal node (keys,
children page IDs).  The `page_id` and `order` attributes of the Python
objects are carried alongside, not inside, the page. -/

/-- A decoded page. -/
inductive Page
  | leaf (keys : List Key) (values : List Nat) (nextPage : Nat)
  | internal (keys : List Key) (children : List Nat)
  deriving DecidableEq, Repr

/-- `u16` little endian. -/
def u16le (n : Nat) : List Nat := [n % 256, n / 256 % 256]

/-- `u32` little endian. -/
def u32le (n : Nat) : List Nat :=
  [n % 256, n / 256 % 256, n / 2 ^ 16 % 256, n / 2 ^ 24 % 256]

/-- The entry section of `LeafPage.serialize`: for each zipped
`(key, value)` pair, `key_len (u16 LE)`, the key bytes, `value (u32 LE)`.
The entry section of `InternalPage.serialize` has the same layout with the
child page ID in place of the value, so it is shared. -/
def serializeEntries : List Key → List Nat → List Nat
  | k :: ks, v :: vs => u16le k.length ++ k ++ u32le v ++ serializeEntries ks vs
  | _, _ => []

/-- `Page.serialize`: header `<BHI>` = `is_leaf`, `key_count`,
`next_page_id` (zero for internal pages), then the entries; an internal
page zips its keys with `children[:-1]` and appends the final child.
No padding and no size check happen here — `_write_page` pads the result
to 4096 bytes with `ljust`. -/
def Page.serialize : Page → List Nat
  | .leaf ks vs next =>
    [1] ++ u16le ks.length ++ u32le next ++ serializeEntries ks vs
  | .internal ks cs =>
    [0] ++ u16le ks.length ++ u32le 0 ++ serializeEntries ks cs.dropLast ++
      (if cs = [] then [] else u32le (cs.getLastD 0))

/-- Read one byte (`data[o]`); missing bytes read as the zero padding. -/
def readByte (l : List Nat) : Nat × List Nat := (l.headD 0, l.tail)

/-- `struct.unpack("<H", ...)` as a consuming read. -/
def readU16 (l : List Nat) : Nat × List Nat :=
  let (b0, l1) := readByte l
  let (b1, l2) := readByte l1
  (b0 + 256 * b1, l2)

/-- `struct.unpack("<I", ...)` as a consuming read. -/
def readU32 (l : List Nat) : Nat × List Nat :=
  let (b0, l1) := readByte l
  let (b1, l2) := readByte l1
  let (b2, l3) := readByte l2
  let (b3, l4) := readByte l3
  (b0 + 256 * b1 + 2 ^ 16 * b2 + 2 ^ 24 * b3, l4)

/-- The entry-reading loop of `Page.deserialize`: `key_count` times, read
`key_len`, the key bytes, and a u32 (value or child). -/
def parseKVs : Nat → List Nat → List Key × List Nat × List Nat
  | 0, rest => ([], [], rest)
  | n + 1, rest =>
    let (len, r1) := readU16 rest
    let key := r1.take len
    let r2 := r1.drop len
    let (v, r3) := readU32 r2
    let (ks, vs, r4) := parseKVs n r3
    (key :: ks, v :: vs, r4)

/-- `Page.deserialize`: read the `<BHI>` header, dispatch on `is_leaf`,
read `key_count` entries, and for an internal page with `key_count > 0`
read the one trailing child page ID (a 0-key internal page gets none). -/
def deserializePage (data : List Nat) : Page :=
  let (isLeaf, r1) := readByte data
  let (count, r2) := readU16 r1
  let (next, r3) := readU32 r2
  let (ks, cs, rest) := parseKVs count r3
  if isLeaf ≠ 0 then .leaf ks cs next
  else if count > 0 then .internal ks (cs ++ [(readU32 rest).1])
  else .internal ks cs

/-- `Page.is_overfull`: `len(keys) >= order` — note `>=`, not `>` (the
in-memory tree uses the strict form). -/
def isOverfull (order : Nat) (ks : List Key) : Bool := ks.length ≥ order

/-- The whole index file plus the in-memory metadata dict: order, root
page ID, free page list, the written pages by ID, and the file size in
pages (`_get_file_size() // PAGE_SIZE`). -/
structure Index where
  order : Nat
  rootPage : Nat
  freePages : List Nat
  pages : List (Nat × Page)
  numPages : Nat
  deriving DecidableEq, Repr

/-- `_initialize_new_file`: metadata page 0 plus an empty root leaf at
page 1. -/
def newIndex (order : Nat) : Index :=
  ⟨order, 1, [], [(1, .leaf [] [] 0)], 2⟩

/-- `_get_page`: decode the 4096 bytes at `id * PAGE_SIZE`.  A page that
was never written reads as zeros, which decode to an internal page with
no keys and no children. -/
def Index.getPage (s : Index) (pid : Nat) : Page :=
  match s.pages.lookup pid with
  | some p => p
  | none => .internal [] []

/-- `_write_page`: encode, pad to 4096, write at `id * PAGE_SIZE` (growing
the file when the ID is at or past the end). -/
def Index.writePage (s : Index) (pid : Nat) (p : Page) : Index :=
  { s with
    pages :=
      if (s.pages.lookup pid).isSome then
        s.pages.map (fun e => if e.1 = pid then (pid, p) else e)
      else s.pages ++ [(pid, p)]
    numPages := max s.numPages (pid + 1) }

/-- `_allocate_page`: pop the last free-list entry if any, else the next
page ID past the end of the file.  Allocation alone does not grow the
file. -/
def Index.allocPage (s : Index) : Nat × Index :=
  match s.freePages.getLast? with
  | some pid => (pid, { s with freePages := s.freePages.dropLast })
  | none => (s.numPages, s)

/-- `_find_leaf_page`: descend from the given page, `bisect_right` at each
internal node, recording the path of `(page_id, page)` pairs.  The
recursion is bounded by a fuel argument (callers pass the page count,
which exceeds the height of any tree stored in the file). -/
def findLeafP (s : Index) : Nat → Key → Nat → List (Nat × Page) →
    (Nat × Page) × List (Nat × Page)
  | 0, _, pid, path => ((pid, s.getPage pid), path)
  | fuel + 1, k, pid, path =>
    match s.getPage pid with
    | .leaf ks vs next => ((pid, .leaf ks vs next), path)
    | .internal ks cs =>
      let pos := bisectRight ks k
      findLeafP s fuel k (cs.getD pos 0) (path ++ [(pid, .internal ks cs)])

/-- `LeafPage.get_values`: `bisect_left`, return `[children[pos]]` on an
exact match and `[]` otherwise.  (Only leaves define the method; the
internal case, unreachable through a well-formed file, yields no value.) -/
def Page.getValues : Page → Key → List Nat
  | .leaf ks vs _, k =>
    let pos := bisectLeft ks k
    match ks.get? pos with
    | some k' => if k' = k then [vs.getD pos 0] else []
    | none => []
  | .internal _ _, _ => []

/-- `BPlusTreeIndex.search`: descend to the leaf, then `get_values`. -/
def Index.search (s : Index) (k : Key) : List Nat :=
  ((findLeafP s s.numPages k s.rootPage []).1).2.getValues k

/-- `LeafPage.add_record`: `bisect_left`; `False` (no change) when the key
is already present, else insert key and value at the position. -/
def addRecord (ks : List Key) (vs : List Nat) (k : Key) (v : Nat) :
    Option (List Key × List Nat) :=
  let pos := bisectLeft ks k
  match ks.get? pos with
  | some k' => if k' = k then none
      else some (ks.insertIdx pos k, vs.insertIdx pos v)
  | none => some (ks.insertIdx pos k, vs.insertIdx pos v)

/-- `_insert_into_parent` with `_split_internal` inlined, recursing up the
recorded path.  The source pops the parent off the end of the path
(`path.pop()`); the model receives the path already reversed (innermost
parent first) so that the pop is the head and the recursion structural.
An empty path means the split reached the root: allocate a new internal
root and update the metadata root pointer.  Otherwise insert the promoted
key and right child into the popped parent and split it if now
overfull. -/
def insertIntoParent (s : Index) (lid : Nat) (k : Key) (rid : Nat) :
    List (Nat × Page) → Index
  | [] =>
    let (nrid, s1) := s.allocPage
    let s2 := s1.writePage nrid (.internal [k] [lid, rid])
    { s2 with rootPage := nrid }
  | (ppid, pp) :: rest =>
    match pp with
    | .internal pks pcs =>
      let pos := bisectLeft pks k
      let pks' := pks.insertIdx pos k
      let pcs' := pcs.insertIdx (pos + 1) rid
      let s1 := s.writePage ppid (.internal pks' pcs')
      if isOverfull s.order pks' then
        -- `_split_internal` on the parent
        let (nid, s2) := s1.allocPage
        let mid := pks'.length / 2
        let newKs := pks'.drop (mid + 1)
        let newCs := pcs'.drop (mid + 1)
        let midKey := pks'.getD mid []
        let oldKs := pks'.take mid
        let oldCs := pcs'.take (mid + 1)
        let s3 := s2.writePage ppid (.internal oldKs oldCs)
        let s4 := s3.writePage nid (.internal newKs newCs)
        insertIntoParent s4 ppid midKey nid rest
      else s1
    | .leaf _ _ _ => s

/-- `_split_leaf`: move the upper half (from `mid = n/2`) to a fresh leaf,
relink `next_page`, write both halves, and promote the new leaf's first
key (handing `_insert_into_parent` the reversed descent path). -/
def splitLeaf (s : Index) (lid : Nat) (ks : List Key) (vs : List Nat)
    (next : Nat) (path : List (Nat × Page)) : Index :=
  let (nid, s1) := s.allocPage
  let mid := ks.length / 2
  let newKs := ks.drop mid
  let newVs := vs.drop mid
  let oldKs := ks.take mid
  let oldVs := vs.take mid
  let s2 := s1.writePage lid (.leaf oldKs oldVs nid)
  let s3 := s2.writePage nid (.leaf newKs newVs next)
  insertIntoParent s3 lid (newKs.headD []) nid path.reverse

/-- An insert error that the spec expects `insert` to surface.  The Python
`insert` returns `None` on every path (it never raises and never returns a
value), which the model renders as the constant first component `none`. -/
inductive DupErr
  | duplicateKey
  deriving DecidableEq, Repr

/-- `BPlusTreeIndex.insert`: descend recording the path; `add_record` into
the leaf — on `False` (duplicate) nothing is written and the caller gets
no indication; otherwise write the leaf and split it when overfull.  The
internal-page case is unreachable through a well-formed file (Python would
raise `AttributeError` before writing anything, leaving the file
unchanged). -/
def Index.insert (s : Index) (k : Key) (v : Nat) : Option DupErr × Index :=
  let r := findLeafP s s.numPages k s.rootPage []
  match (r.1).2 with
  | .leaf ks vs next =>
    match addRecord ks vs k v with
    | none => (none, s)
    | some (ks', vs') =>
      let s1 := s.writePage (r.1).1 (.leaf ks' vs' next)
      if isOverfull s.order ks' then (none, splitLeaf s1 (r.1).1 ks' vs' next r.2)
      else (none, s1)
  | .internal _ _ => (none, s)

/-- The per-leaf loop of `range_query`: collect values of zipped keys in
`[lo, hi]`; a key past `hi` aborts the whole query (second component
`true`); keys below `lo` are skipped. -/
def leafRangeScan (lo hi : Key) : List Key → List Nat → List Nat × Bool
  | k :: ks', v :: vs' =>
    if bLe lo k && bLe k hi then
      let r := leafRangeScan lo hi ks' vs'
      (v :: r.1, r.2)
    else if bLt hi k then ([], true)
    else leafRangeScan lo hi ks' vs'
  | _, _ => ([], false)

/-- `BPlusTreeIndex.range_query`: descend to the leaf containing `start`,
scan forward through the leaf chain collecting values of keys in
`[start, end]`, stopping at the first key past `end` or at
`next_page == 0`.  Fueled by the page count. -/
def Index.rangeGo (s : Index) : Nat → Page → Key → Key → List Nat
  | 0, _, _, _ => []
  | _, .internal _ _, _, _ => []
  | fuel + 1, .leaf ks vs next, lo, hi =>
    let r := leafRangeScan lo hi ks vs
    if r.2 then r.1
    else if next = 0 then r.1
    else r.1 ++ s.rangeGo fuel (s.getPage next) lo hi

/-- `range_query(start, end)` from the root. -/
def Index.rangeQuery (s : Index) (lo hi : Key) : List Nat :=
  s.rangeGo s.numPages ((findLeafP s s.numPages lo s.rootPage []).1).2 lo hi

/-! ### In-memory B+ tree (`BPlusTree/b_plus_tree.py`)

Keys and values are the arbitrary Python objects the demo uses integers
for; modelled as `Nat`.  The `next_leaf` pointers are maintained only by
`split`/`merge` and never consulted by `insert`/`get`/`delete`, and the
only rebalancing paths that would touch them are unreachable (see
`mDelete`), so they are not modelled.

Two methods referenced by deletion do not exist in the source:

* `Node.is_root` evaluates `self == bplus_tree.root`, where `bplus_tree`
  is a global defined only in the demo `__main__` block — the model
  charitably reads it as "this node is the current root";
* `can_lend` is called on sibling nodes (`left_sib.can_lend()`), but no
  class defines it, so the first time `_handle_underflow` consults a
  sibling the program dies with `AttributeError` (and when both siblings
  are `None`, `parent.merge(node, None)` dies the same way).  Every path
  of `_handle_underflow` past its early return therefore raises, which the
  model renders as `Except.error PyErr.attributeError`. -/

/-- A node of the in-memory tree. -/
inductive MNode
  | leaf (keys : List Nat) (values : List Nat)
  | internal (keys : List Nat) (children : List MNode)

/-- The tree object: `order` plus the root node.  The recursive walks
below are bounded by an explicit fuel argument standing for Python's
unbounded recursion; any fuel at least the height of the tree gives the
Python behaviour. -/
structure MTree where
  order : Nat
  root : MNode

/-- A Python runtime error escaping the library code. -/
inductive PyErr
  | attributeError
  deriving DecidableEq, Repr

/-- The linear scan `index = 0; while index < len(keys) and keys[index] <
key: index += 1` shared by `LeafNode.insert` and
`InternalNode.insert_child`. -/
def linScanLt (k : Nat) : List Nat → Nat
  | [] => 0
  | k' :: ks' => if k' < k then linScanLt k ks' + 1 else 0

/-- `LeafNode.insert`: insert key and value at the scanned position. -/
def leafInsert (ks vs : List Nat) (k v : Nat) : List Nat × List Nat :=
  (ks.insertIdx (linScanLt k ks) k, vs.insertIdx (linScanLt k ks) v)

/-- `InternalNode.get_child`: `while key >= keys[index]: index += 1`. -/
def getChildIdx (k : Nat) : List Nat → Nat
  | [] => 0
  | k' :: ks => if k ≥ k' then getChildIdx k ks + 1 else 0

/-- Result of inserting into a subtree: either the updated node, or the
two halves and promoted key after a split. -/
inductive InsRes
  | one (n : MNode)
  | split (l : MNode) (k : Nat) (r : MNode)

/-- `BPlusTree.insert` with `_handle_split`, as one recursive pass (the
source records the path on the way down and bubbles splits up it; the
result is the same tree).  `is_overfilled` is the strict `len > order`.
`LeafNode.split` copies `keys[mid:]`/`values[mid:]` into the new right
node and promotes the new node's first key, but — unlike
`InternalNode.split` — never truncates `self.keys`/`self.values`, so the
left leaf keeps the full list, upper half included; the model reproduces
this faithfully.  Internal split promotes `keys[mid]`, the new right
node taking `keys[mid+1:]` and `children[mid+1:]`, the old node keeping
`keys[:mid]` and `children[:mid+1]`. -/
def mInsertGo (order : Nat) : Nat → MNode → Nat → Nat → InsRes
  | 0, n, _, _ => .one n
  | _, .leaf ks vs, k, v =>
    let r := leafInsert ks vs k v
    if r.1.length > order then
      let mid := r.1.length / 2
      .split (.leaf r.1 r.2)
        ((r.1.drop mid).headD 0) (.leaf (r.1.drop mid) (r.2.drop mid))
    else .one (.leaf r.1 r.2)
  | fuel + 1, .internal ks cs, k, v =>
    let pos := getChildIdx k ks
    match mInsertGo order fuel (cs.getD pos (.leaf [] [])) k v with
    | .one c => .one (.internal ks (cs.set pos c))
    | .split lc pk rc =>
      let cs1 := cs.set pos lc
      let ipos := linScanLt pk ks
      let ks' := ks.insertIdx ipos pk
      let cs' := cs1.insertIdx (ipos + 1) rc
      if ks'.length > order then
        let mid := ks'.length / 2
        .split (.internal (ks'.take mid) (cs'.take (mid + 1)))
          (ks'.getD mid 0)
          (.internal (ks'.drop (mid + 1)) (cs'.drop (mid + 1)))
      else .one (.internal ks' cs')

/-- `BPlusTree.insert`: split the root into a fresh internal root when the
recursion reports a split. -/
def MTree.insert (t : MTree) (fuel : Nat) (k v : Nat) : MTree :=
  match mInsertGo t.order fuel t.root k v with
  | .one n => { t with root := n }
  | .split l pk r => { t with root := .internal [pk] [l, r] }

/-- `LeafNode.get`: binary search for the key, `None` when absent. -/
def leafGet (k : Nat) : List Nat → List Nat → Option Nat
  | k' :: ks, v' :: vs =>
    if k' < k then leafGet k ks vs
    else if k' = k then some v'
    else none
  | _, _ => none

/-- `BPlusTree.get`: descend by `get_child` to the leaf, then leaf `get`. -/
def mGet : Nat → MNode → Nat → Option Nat
  | 0, _, _ => none
  | _, .leaf ks vs, k => leafGet k ks vs
  | fuel + 1, .internal ks cs, k =>
    mGet fuel (cs.getD (getChildIdx k ks) (.leaf [] [])) k

/-- `BPlusTree.get` from the root. -/
def MTree.get (t : MTree) (fuel k : Nat) : Option Nat :=
  mGet fuel t.root k

/-- `Node.is_half_filled`: `len(keys) >= (order + 1) // 2`. -/
def isHalfFilled (order : Nat) (ks : List Nat) : Bool :=
  ks.length ≥ (order + 1) / 2

/-- `LeafNode.delete`: `False` when absent, else pop the key and its
value. -/
def leafDelete (k : Nat) : List Nat → List Nat →
    Option (List Nat × List Nat)
  | k' :: ks, v' :: vs =>
    if k' = k then some (ks, vs)
    else
      match leafDelete k ks vs with
      | some r => some (k' :: r.1, v' :: r.2)
      | none => none
  | _, _ => none

/-- Descend to the leaf for `key`, delete there, and rebuild the tree with
the shrunken leaf; also report the leaf's keys after deletion and whether
the leaf is the root (empty path).  `none` when the key was absent. -/
def mDeleteGo : Nat → MNode → Nat → Option (MNode × List Nat)
  | 0, _, _ => none
  | _, .leaf ks vs, k =>
    match leafDelete k ks vs with
    | some r => some (.leaf r.1 r.2, r.1)
    | none => none
  | fuel + 1, .internal ks cs, k =>
    let pos := getChildIdx k ks
    match mDeleteGo fuel (cs.getD pos (.leaf [] [])) k with
    | some r => some (.internal ks (cs.set pos r.1), r.2)
    | none => none

/-- `BPlusTree.delete`: when the leaf `delete` returns `True`,
`_handle_underflow` runs on it: it returns at once when the leaf is the
root or still half-filled, and on every other path it calls `can_lend` on
a sibling (or `merge` with a `None` sibling) and raises
`AttributeError`. -/
def MTree.delete (t : MTree) (fuel k : Nat) : Except PyErr MTree :=
  match t.root with
  | .leaf ks vs =>
    match leafDelete k ks vs with
    | some r => .ok { t with root := .leaf r.1 r.2 }
    | none => .ok t
  | .internal _ _ =>
    match mDeleteGo fuel t.root k with
    | some r =>
      if isHalfFilled t.order r.2 then .ok { t with root := r.1 }
      else .error .attributeError
    | none => .ok t

/-! ### Well-formed pages and the half-full threshold -/

/-- A well-formed page: a leaf has as many values as keys; an internal
page has one more child than keys; counts, key lengths, and u32 fields
fit their encodings. -/
def PageWF : Page → Prop
  | .leaf ks vs next =>
    ks.length = vs.length ∧ ks.length < 2 ^ 16 ∧ next < 2 ^ 32 ∧
      (∀ k ∈ ks, k.length < 2 ^ 16) ∧ (∀ v ∈ vs, v < 2 ^ 32)
  | .internal ks cs =>
    cs.length = ks.length + 1 ∧ ks.length < 2 ^ 16 ∧
      (∀ k ∈ ks, k.length < 2 ^ 16) ∧ (∀ c ∈ cs, c < 2 ^ 32)

/-- The spec's half-full threshold `⌈(order+1)/2⌉ − 1`. -/
def halfFullMin (order : Nat) : Nat := (order + 2) / 2 - 1

/-! ### Concrete states exercised by the claim theorems -/

/-- The key `"a"`. -/
def kA : Key := strBytes "a"

/-- The key `"K"`. -/
def kK : Key := strBytes "K"

/-- The key `"z"`. -/
def kZ : Key := strBytes "z"

/-- The key `"\x7f"` — one code point above the `"~"` upper bound that
`_compact` passes to `range_scan`. -/
def k7f : Key := [127]

/-- Claim C1's crash scenario: open a fresh store, `set("K", 7)`, and
abort without closing; this is the directory the process leaves behind
(the WAL holds the fsync'd `set` line, no flush ever happened). -/
def c1Crashed : Disk := (lsmSet (lsmOpen emptyDisk) kK (some 7)).disk

/-- Claim C2/C3's run: `set("a", 1)`, `close()` (flushing `a ↦ 1` into
`sstable_0.db`), then `delete("a")` (leaving a tombstone in the fresh
memtable). -/
def c2Run : LSM := lsmDelete (lsmClose (lsmSet (lsmOpen emptyDisk) kA (some 1))) kA

/-- One `set("a", v); close()` round: `close` flushes the singleton
memtable into a new SSTable. -/
def setCloseRound (s : LSM) (v : Val) : LSM := lsmClose (lsmSet s kA (some v))

/-- Six rounds: the sixth flush makes six SSTables, which triggers
compaction (six > `max_sstables`), leaving only `sstable_compacted.db`
with `a ↦ 6`. -/
def c9AfterCompact : LSM :=
  setCloseRound (setCloseRound (setCloseRound (setCloseRound (setCloseRound
    (setCloseRound (lsmOpen emptyDisk) 1) 2) 3) 4) 5) 6

/-- A seventh round after the compaction: the flush is named
`sstable_{len(sstables)} = sstable_1.db` and holds the overwrite
`a ↦ 7`. -/
def c9Final : LSM := setCloseRound c9AfterCompact 7

/-- Reopening the directory left by `c9Final`. -/
def c9Reopened : LSM := lsmOpen c9Final.disk

/-- An SSTable `sstable_{i}.db` holding only `"\x7f" ↦ i + 1`. -/
def sstOne (i : Nat) : SST := ⟨sstableName i, [(k7f, some (i + 1))]⟩

/-- Claim C4's counterexample state: six SSTables (as after the sixth
flush appended `sstable_5.db` and before `_flush_memtable` invokes
`_compact` on seeing `len(sstables) > max_sstables`), every generation
holding a value for the key `"\x7f"`. -/
def c4Before : LSM :=
  ⟨emptyDisk, ⟨[], some 1000⟩,
    [sstOne 0, sstOne 1, sstOne 2, sstOne 3, sstOne 4, sstOne 5], ⟨[]⟩⟩

/-- A small state used to witness the amended C4: one SSTable holding
`a ↦ 1`. -/
def c4WitState : LSM :=
  ⟨emptyDisk, ⟨[], some 1000⟩, [⟨sstableName 0, [(kA, some 1)]⟩], ⟨[]⟩⟩

/-- Claim C5's insertion sequence: the ten single-byte keys
`b"a"` … `b"j"` with record IDs 1 … 10, inserted into a fresh index of
order 4 (an even order, as is the reference order 100). -/
def c5Tree : Index :=
  ([(97, 1), (98, 2), (99, 3), (100, 4), (101, 5),
    (102, 6), (103, 7), (104, 8), (105, 9), (106, 10)] :
      List (Nat × Nat)).foldl
    (fun s p => (s.insert [p.1] p.2).2) (newIndex 4)

/-- Claim C6's tree: order 3, keys 1–4 inserted (values 101–104).  The
fourth insert overfills the root leaf and splits it: the new right leaf
takes `[3, 4]`, and — `LeafNode.split` truncating nothing — the left
leaf keeps `[1, 2, 3, 4]`, under a root with separator key 3. -/
def c6Tree : MTree :=
  ((⟨3, .leaf [] []⟩ : MTree).insert 10 1 101 |>.insert 10 2 102
    |>.insert 10 3 103 |>.insert 10 4 104)

/-- Claim C7's state: a fresh index of order 4 with `b"a" ↦ 1` inserted
once. -/
def c7Once : Index := ((newIndex 4).insert kA 1).2

/-- A freshly opened store on an empty directory (used by witnesses). -/
def lsmInit : LSM := lsmOpen emptyDisk

/-- A well-formed two-entry leaf page (used to witness the codec
roundtrip). -/
def c8WitPage : Page := .leaf [strBytes "ab", strBytes "cd"] [7, 9] 3

/-! ## Lemmas

First the order theory of `bLt`/`bLe`, then the generic lemmas about the
entry-list operations, then one theorem per claim. -/

theorem bLt_irrefl (l : List Nat) : bLt l l = false := by
  induction l with
  | nil => rfl
  | cons a t ih => simp [bLt, ih]

theorem bLt_asymm {a b : List Nat} (h : bLt a b = true) : bLt b a = false := by
  induction a generalizing b with
  | nil => cases b with
    | nil => simp [bLt] at h
    | cons y ys => simp [bLt]
  | cons x xs ih =>
    cases b with
    | nil => simp [bLt] at h
    | cons y ys =>
      rcases Nat.lt_trichotomy x y with hxy | hxy | hxy
      · simp [bLt, hxy, Nat.lt_asymm hxy]
      · subst hxy
        simp only [bLt, Nat.lt_irrefl, if_false] at h ⊢
        exact ih h
      · simp [bLt, hxy, Nat.lt_asymm hxy] at h

theorem bLt_connex {a b : List Nat} (h1 : bLt a b = false)
    (h2 : bLt b a = false) : a = b := by
  induction a generalizing b with
  | nil => cases b with
    | nil => rfl
    | cons y ys => simp [bLt] at h1
  | cons x xs ih =>
    cases b with
    | nil => simp [bLt] at h2
    | cons y ys =>
      rcases Nat.lt_trichotomy x y with hxy | hxy | hxy
      · simp [bLt, hxy] at h1
      · subst hxy
        simp only [bLt, Nat.lt_irrefl, if_false] at h1 h2
        rw [ih h1 h2]
      · simp [bLt, hxy] at h2

theorem bLt_trans {a b c : List Nat} (h1 : bLt a b = true)
    (h2 : bLt b c = true) : bLt a c = true := by
  induction a generalizing b c with
  | nil =>
    cases c with
    | nil =>
      cases b with
      | nil => exact h1
      | cons y ys => simp [bLt] at h2
    | cons z zs => simp [bLt]
  | cons x xs ih =>
    cases b with
    | nil => simp [bLt] at h1
    | cons y ys =>
      cases c with
      | nil => simp [bLt] at h2
      | cons z zs =>
        rcases Nat.lt_trichotomy x y with hxy | hxy | hxy
        · rcases Nat.lt_trichotomy y z with hyz | hyz | hyz
          · simp [bLt, Nat.lt_trans hxy hyz]
          · subst hyz; simp [bLt, hxy]
          · simp [bLt, hyz, Nat.lt_asymm hyz] at h2
        · subst hxy
          rcases Nat.lt_trichotomy x z with hyz | hyz | hyz
          · simp [bLt, hyz]
          · subst hyz
            simp only [bLt, Nat.lt_irrefl, if_false] at h1 h2 ⊢
            exact ih h1 h2
          · simp [bLt, hyz, Nat.lt_asymm hyz] at h2
        · simp [bLt, hxy, Nat.lt_asymm hxy] at h1

theorem bLt_ne {a b : List Nat} (h : bLt a b = true) : a ≠ b := by
  intro he; subst he; rw [bLt_irrefl] at h; exact Bool.false_ne_true h

theorem bLe_refl (a : List Nat) : bLe a a = true := by
  simp [bLe]

theorem bLe_eq_not_bLt (a b : List Nat) : bLe a b = !bLt b a := by
  rcases hab : bLt b a with _ | _
  · rcases h2 : bLt a b with _ | _
    · have := bLt_connex h2 hab
      simp [bLe, this]
    · simp [bLe, h2]
  · have h2 := bLt_asymm hab
    have h3 : a ≠ b := fun he => bLt_ne hab he.symm
    simp [bLe, h2, h3]

theorem bLe_nil (a : List Nat) : bLe [] a = true := by
  cases a <;> simp [bLe, bLt]

/-! ### Entry-list lemmas -/

theorem entriesAdd_nil (k : Key) (v : Option Val) :
    entriesAdd [] k v = [(k, v)] := rfl

theorem entriesAdd_cons (e : Key × Option Val)
    (t : List (Key × Option Val)) (k : Key) (v : Option Val) :
    entriesAdd (e :: t) k v =
      if bLt e.1 k then e :: entriesAdd t k v
      else if e.1 = k then (k, v) :: t
      else (k, v) :: e :: t := by
  rcases he : bLt e.1 k with _ | _
  · rw [if_neg (by simp [he])]
    simp only [entriesAdd, List.map_cons, bisectLeft, he, Bool.false_eq_true,
      if_false, List.get?_cons_zero]
    by_cases hek : e.1 = k
    · rw [if_pos hek, if_pos hek, List.set]
    · rw [if_neg hek, if_neg hek, List.insertIdx_zero]
  · rw [if_pos (by simp [he])]
    simp only [entriesAdd, List.map_cons, bisectLeft, he, if_true,
      List.get?_cons_succ]
    rcases hg : t.get? (bisectLeft (t.map Prod.fst) k) with _ | e2
    · simp only [List.insertIdx_succ_cons]
    · by_cases he2 : e2.1 = k
      · simp only [if_pos he2, List.set]
      · simp only [if_neg he2, List.insertIdx_succ_cons]

theorem entriesGet_nil (k : Key) : entriesGet [] k = none := rfl

theorem entriesGet_cons (e : Key × Option Val)
    (t : List (Key × Option Val)) (k : Key) :
    entriesGet (e :: t) k =
      if bLt e.1 k then entriesGet t k
      else if e.1 = k then e.2
      else none := by
  rcases he : bLt e.1 k with _ | _
  · rw [if_neg (by simp [he])]
    simp only [entriesGet, List.map_cons, bisectLeft, he, Bool.false_eq_true,
      if_false, List.get?_cons_zero]
  · rw [if_pos (by simp [he])]
    simp only [entriesGet, List.map_cons, bisectLeft, he, if_true,
      List.get?_cons_succ]

/-- Overwriting or inserting `k` makes `get k` return the stored value —
including a stored tombstone, which reads back as `none`. -/
theorem entriesGet_add_same (l : List (Key × Option Val)) (k : Key)
    (v : Option Val) : entriesGet (entriesAdd l k v) k = v := by
  induction l with
  | nil =>
    rw [entriesAdd_nil, entriesGet_cons]
    simp [bLt_irrefl]
  | cons e t ih =>
    rw [entriesAdd_cons]
    rcases he : bLt e.1 k with _ | _
    · rw [if_neg (by simp [he])]
      by_cases hek : e.1 = k
      · rw [if_pos hek, entriesGet_cons]
        simp [bLt_irrefl]
      · rw [if_neg hek, entriesGet_cons]
        simp [bLt_irrefl]
    · rw [if_pos (by simp [he]), entriesGet_cons, if_pos (by simp [he])]
      exact ih

/-- Adding `k` does not change `get` at any other key. -/
theorem entriesGet_add_other (l : List (Key × Option Val)) (k k' : Key)
    (v : Option Val) (hne : k' ≠ k) :
    entriesGet (entriesAdd l k v) k' = entriesGet l k' := by
  induction l with
  | nil =>
    rw [entriesAdd_nil, entriesGet_cons, entriesGet_nil]
    rcases h : bLt k k' with _ | _
    · simp [Ne.symm hne]
    · simp [entriesGet_nil]
  | cons e t ih =>
    rw [entriesAdd_cons]
    rcases he : bLt e.1 k with _ | _
    · rw [if_neg (by simp [he])]
      by_cases hek : e.1 = k
      · rw [if_pos hek, entriesGet_cons, entriesGet_cons, hek]
        rcases h1 : bLt k k' with _ | _
        · simp [Ne.symm hne]
        · rfl
      · rw [if_neg hek, entriesGet_cons]
        have hke : bLt k e.1 = true := by
          rcases h2 : bLt k e.1 with _ | _
          · exact absurd (bLt_connex h2 he).symm hek
          · rfl
        rcases h1 : bLt k k' with _ | _
        · rw [if_neg (by simp), if_neg (Ne.symm hne)]
          have hk'k : bLt k' k = true := by
            rcases h3 : bLt k' k with _ | _
            · exact absurd (bLt_connex h1 h3) (Ne.symm hne)
            · rfl
          have h4 : bLt k' e.1 = true := bLt_trans hk'k hke
          rw [entriesGet_cons, if_neg (by simp [bLt_asymm h4]),
            if_neg (Ne.symm (bLt_ne h4))]
        · rw [if_pos (by simp [h1])]
    · rw [if_pos (by simp [he]), entriesGet_cons, entriesGet_cons, ih]

theorem lookup_cons_self (a : Key) (b : Option Val)
    (t : List (Key × Option Val)) :
    List.lookup a ((a, b) :: t) = some b := by
  simp [List.lookup]

theorem lookup_cons_ne {k a : Key} (b : Option Val)
    (t : List (Key × Option Val)) (h : k ≠ a) :
    List.lookup k ((a, b) :: t) = List.lookup k t := by
  simp only [List.lookup]
  rw [show (k == a) = false from beq_eq_false_iff_ne.mpr h]

theorem lookup_none_of_not_mem {l : List (Key × Option Val)} {k : Key}
    (h : k ∉ l.map Prod.fst) : l.lookup k = none := by
  induction l with
  | nil => rfl
  | cons e t ih =>
    simp only [List.map_cons, List.mem_cons, not_or] at h
    rcases e with ⟨a, b⟩
    rw [lookup_cons_ne b t h.1]
    exact ih h.2

/-- `lookup` after `entriesAdd` at the added key. -/
theorem lookup_add_same (l : List (Key × Option Val)) (k : Key)
    (v : Option Val) : (entriesAdd l k v).lookup k = some v := by
  induction l with
  | nil => rw [entriesAdd_nil, lookup_cons_self]
  | cons e t ih =>
    rw [entriesAdd_cons]
    rcases he : bLt e.1 k with _ | _
    · by_cases hek : e.1 = k
      · rw [if_neg (by simp [he]), if_pos hek, lookup_cons_self]
      · rw [if_neg (by simp [he]), if_neg hek, lookup_cons_self]
    · rw [if_pos (by simp [he])]
      rcases e with ⟨a, b⟩
      rw [lookup_cons_ne b _ (Ne.symm (bLt_ne he))]
      exact ih

/-- `lookup` after `entriesAdd` at any other key. -/
theorem lookup_add_other (l : List (Key × Option Val)) (k k' : Key)
    (v : Option Val) (hne : k' ≠ k) :
    (entriesAdd l k v).lookup k' = l.lookup k' := by
  induction l with
  | nil => rw [entriesAdd_nil, lookup_cons_ne v [] hne]
  | cons e t ih =>
    rw [entriesAdd_cons]
    rcases he : bLt e.1 k with _ | _
    · by_cases hek : e.1 = k
      · rw [if_neg (by simp [he]), if_pos hek]
        rcases e with ⟨a, b⟩
        cases hek
        rw [lookup_cons_ne v t hne, lookup_cons_ne b t hne]
      · rw [if_neg (by simp [he]), if_neg hek,
          lookup_cons_ne v ((e.1, e.2) :: t) hne]
    · rw [if_pos (by simp [he])]
      rcases e with ⟨a, b⟩
      by_cases h1 : k' = a
      · subst h1
        rw [lookup_cons_self, lookup_cons_self]
      · rw [lookup_cons_ne b _ h1, lookup_cons_ne b t h1]
        exact ih

/-! ### Sorting is a permutation -/

theorem insSorted_perm (le : List Nat → List Nat → Bool) (a : List Nat)
    (l : List (List Nat)) : List.Perm (insSorted le a l) (a :: l) := by
  induction l with
  | nil => exact List.Perm.refl _
  | cons b t ih =>
    rw [insSorted]
    rcases le a b with _ | _
    · simp only [Bool.false_eq_true, if_false]
      exact (List.Perm.cons b ih).trans (List.Perm.swap a b t)
    · exact List.Perm.refl _

theorem sortB_perm (l : List (List Nat)) : List.Perm (sortB l) l := by
  induction l with
  | nil => exact List.Perm.refl _
  | cons a t ih =>
    have h1 : sortB (a :: t) = insSorted bLe a (sortB t) := rfl
    rw [h1]
    exact (insSorted_perm bLe a (sortB t)).trans (List.Perm.cons a ih)

/-! ### The seen-keys set of `range_query` -/

theorem scanSeen_seen_subset (scanned : List (Key × Option Val))
    (seen : List Key) (x : Key) (hx : x ∈ seen) :
    x ∈ (scanSeen scanned seen).2 := by
  induction scanned generalizing seen with
  | nil => exact hx
  | cons p rest ih =>
    rcases p with ⟨k, v⟩
    rw [scanSeen]
    by_cases hk : k ∈ seen
    · rw [if_pos hk]; exact ih seen hx
    · rw [if_neg hk]
      exact ih (k :: seen) (List.mem_cons_of_mem k hx)

theorem scanSeen_emitted (scanned : List (Key × Option Val))
    (seen : List Key) (p : Key × Option Val)
    (hp : p ∈ (scanSeen scanned seen).1) :
    p.1 ∉ seen ∧ p.1 ∈ (scanSeen scanned seen).2 ∧ p.2 ≠ none := by
  induction scanned generalizing seen with
  | nil => simp [scanSeen] at hp
  | cons q rest ih =>
    rcases q with ⟨k, v⟩
    rw [scanSeen] at hp ⊢
    by_cases hk : k ∈ seen
    · rw [if_pos hk] at hp ⊢
      exact ih seen hp
    · rw [if_neg hk] at hp ⊢
      simp only [] at hp ⊢
      by_cases hv : v ≠ none
      · rw [if_pos hv] at hp
        rcases List.mem_cons.mp hp with h1 | h1
        · subst h1
          refine ⟨hk, ?_, hv⟩
          exact scanSeen_seen_subset rest (k :: seen) k (List.mem_cons_self k seen)
        · have := ih (k :: seen) h1
          exact ⟨fun hc => this.1 (List.mem_cons_of_mem k hc), this.2.1, this.2.2⟩
      · rw [if_neg hv] at hp
        have := ih (k :: seen) hp
        exact ⟨fun hc => this.1 (List.mem_cons_of_mem k hc), this.2.1, this.2.2⟩

theorem scanSeen_nodup (scanned : List (Key × Option Val))
    (seen : List Key) :
    ((scanSeen scanned seen).1.map Prod.fst).Nodup := by
  induction scanned generalizing seen with
  | nil => simp [scanSeen]
  | cons q rest ih =>
    rcases q with ⟨k, v⟩
    rw [scanSeen]
    by_cases hk : k ∈ seen
    · rw [if_pos hk]; exact ih seen
    · rw [if_neg hk]
      simp only []
      by_cases hv : v ≠ none
      · rw [if_pos hv]
        simp only [List.map_cons, List.nodup_cons]
        refine ⟨?_, ih (k :: seen)⟩
        intro hc
        rcases List.mem_map.mp hc with ⟨p, hp, hpk⟩
        have := (scanSeen_emitted rest (k :: seen) p hp).1
        exact this (hpk ▸ List.mem_cons_self k seen)
      · rw [if_neg hv]; exact ih (k :: seen)

theorem tablesRange_emitted (tables : List SST) (lo hi : Key)
    (seen : List Key) (p : Key × Option Val)
    (hp : p ∈ tablesRange tables lo hi seen) :
    p.1 ∉ seen ∧ p.2 ≠ none := by
  induction tables generalizing seen with
  | nil => simp [tablesRange] at hp
  | cons t rest ih =>
    rw [tablesRange] at hp
    rcases List.mem_append.mp hp with h1 | h1
    · have := scanSeen_emitted _ _ _ h1
      exact ⟨this.1, this.2.2⟩
    · have h2 := ih _ h1
      refine ⟨fun hc => h2.1 ?_, h2.2⟩
      exact scanSeen_seen_subset _ _ _ hc

theorem tablesRange_nodup (tables : List SST) (lo hi : Key)
    (seen : List Key) :
    ((tablesRange tables lo hi seen).map Prod.fst).Nodup := by
  induction tables generalizing seen with
  | nil => simp [tablesRange]
  | cons t rest ih =>
    rw [tablesRange]
    rw [List.map_append]
    refine List.Nodup.append (scanSeen_nodup _ _) (ih _) ?_
    intro x hx1 hx2
    rcases List.mem_map.mp hx1 with ⟨p, hp, hpk⟩
    rcases List.mem_map.mp hx2 with ⟨q, hq, hqk⟩
    have h1 := (scanSeen_emitted _ _ _ hp).2.1
    have h2 := (tablesRange_emitted _ _ _ _ _ hq).1
    exact h2 (hqk ▸ hpk ▸ h1)

/-! ### `MemTable.range_scan` versus filtering, on sorted entries -/

theorem filter_range_nil (l : List (Key × Option Val)) (lo hi : Key)
    (h : ∀ e ∈ l, bLt hi e.1 = true) :
    l.filter (fun e => bLe lo e.1 && bLe e.1 hi) = [] := by
  induction l with
  | nil => rfl
  | cons e t ih =>
    rw [List.filter_cons]
    have h1 : bLe e.1 hi = false := by
      rw [bLe_eq_not_bLt, h e (List.mem_cons_self e t)]
      rfl
    rw [if_neg (by simp [h1])]
    exact ih (fun x hx => h x (List.mem_cons_of_mem e hx))

/-- On strictly sorted entries, the `bisect` slice taken by `range_scan`
is exactly the filter on `lo ≤ k ≤ hi`. -/
theorem slice_eq_filter (l : List (Key × Option Val)) (lo hi : Key)
    (hs : List.Pairwise (fun a b => bLt a.1 b.1 = true) l) :
    slice l (bisectLeft (l.map Prod.fst) lo) (bisectRight (l.map Prod.fst) hi)
      = l.filter (fun e => bLe lo e.1 && bLe e.1 hi) := by
  induction l with
  | nil => rfl
  | cons e t ih =>
    rcases List.pairwise_cons.mp hs with ⟨hhead, htail⟩
    rw [List.map_cons, List.filter_cons]
    rcases hlo : bLt e.1 lo with _ | _
    · -- e.1 ≥ lo: the slice starts at the head
      rw [show bisectLeft (e.1 :: t.map Prod.fst) lo = 0 by
        simp [bisectLeft, hlo]]
      rcases hhi : bLt hi e.1 with _ | _
      · -- e in range: kept
        rw [show bisectRight (e.1 :: t.map Prod.fst) hi =
            bisectRight (t.map Prod.fst) hi + 1 by simp [bisectRight, hhi]]
        rw [if_pos (by
          simp [bLe_eq_not_bLt, hlo, hhi])]
        have hbl0 : bisectLeft (t.map Prod.fst) lo = 0 := by
          cases t with
          | nil => rfl
          | cons e2 t2 =>
            have h3 : bLt e2.1 lo = false := by
              rcases h4 : bLt e2.1 lo with _ | _
              · rfl
              · have h5 := hhead e2 (List.mem_cons_self e2 t2)
                rw [bLt_trans h5 h4] at hlo
                exact hlo
            simp [bisectLeft, h3]
        have := ih htail
        rw [hbl0] at this
        simp only [slice, List.drop_zero, Nat.sub_zero] at this ⊢
        rw [List.take_succ_cons, this]
      · -- hi < e.1: everything from here on is above the range
        rw [show bisectRight (e.1 :: t.map Prod.fst) hi = 0 by
          simp [bisectRight, hhi]]
        rw [if_neg (by simp [bLe_eq_not_bLt, hhi])]
        simp only [slice, Nat.zero_sub, List.take_zero]
        rw [filter_range_nil t lo hi
          (fun x hx => bLt_trans hhi (hhead x hx))]
    · -- e.1 < lo: skipped, slice starts further right
      rw [show bisectLeft (e.1 :: t.map Prod.fst) lo =
          bisectLeft (t.map Prod.fst) lo + 1 by simp [bisectLeft, hlo]]
      rw [if_neg (by simp [bLe_eq_not_bLt, hlo])]
      rcases hhi : bLt hi e.1 with _ | _
      · rw [show bisectRight (e.1 :: t.map Prod.fst) hi =
            bisectRight (t.map Prod.fst) hi + 1 by simp [bisectRight, hhi]]
        have := ih htail
        simp only [slice, List.drop_succ_cons] at this ⊢
        rw [show bisectRight (t.map Prod.fst) hi + 1 -
            (bisectLeft (t.map Prod.fst) lo + 1) =
            bisectRight (t.map Prod.fst) hi -
            bisectLeft (t.map Prod.fst) lo from by omega]
        exact this
      · rw [show bisectRight (e.1 :: t.map Prod.fst) hi = 0 by
          simp [bisectRight, hhi]]
        simp only [slice, Nat.zero_sub, List.take_zero]
        rw [filter_range_nil t lo hi
          (fun x hx => bLt_trans hhi (hhead x hx))]

/-! ### Compaction: lookup in the merged table -/

/-- The keys an SSTable `range_scan` emits are the scanned keys whose
stored value is non-null. -/
theorem scan_map_fst (keys : List Key) (t : SST) :
    ((keys.filterMap (fun k =>
      match t.get k with
      | some v => some (k, some v)
      | none => none)).map Prod.fst) =
    keys.filter (fun k => (t.get k).isSome) := by
  induction keys with
  | nil => rfl
  | cons a rest ih =>
    rw [List.filterMap_cons, List.filter_cons]
    rcases hg : t.get a with _ | v
    · rw [if_neg (by simp [hg])]
      exact ih
    · rw [if_pos (by simp [hg])]
      rw [List.map_cons, ih]

/-- Looking a key up in the emitted pair list of one `range_scan`, given
distinct scanned keys. -/
theorem lookup_scan_keys (keys : List Key) (t : SST) (k : Key)
    (h : keys.Nodup) :
    (keys.filterMap (fun k' =>
      match t.get k' with
      | some v => some (k', some v)
      | none => none)).lookup k =
    if k ∈ keys then
      (match t.get k with
      | some v => some (some v)
      | none => none)
    else none := by
  induction keys with
  | nil => rfl
  | cons a rest ih =>
    rcases List.nodup_cons.mp h with ⟨ha, hrest⟩
    rw [List.filterMap_cons]
    by_cases hk : k = a
    · subst hk
      rw [if_pos (List.mem_cons_self k rest)]
      rcases hg : t.get k with _ | v
      · have : k ∉ rest := ha
        rw [ih hrest, if_neg this]
      · rw [lookup_cons_self]
    · rcases hg : t.get a with _ | v
      · rw [ih hrest]
        by_cases hm : k ∈ rest
        · rw [if_pos hm, if_pos (List.mem_cons_of_mem a hm)]
        · rw [if_neg hm, if_neg (by simp [hk, hm])]
      · rw [lookup_cons_ne (some v) _ hk, ih hrest]
        by_cases hm : k ∈ rest
        · rw [if_pos hm, if_pos (List.mem_cons_of_mem a hm)]
        · rw [if_neg hm, if_neg (by simp [hk, hm])]

/-- Looking a key up in an SSTable `range_scan` output: a hit exactly for
in-range keys whose `get` is non-null. -/
theorem rangeScan_lookup (t : SST) (lo hi k : Key)
    (hND : (t.content.map Prod.fst).Nodup) :
    (t.rangeScan lo hi).lookup k =
      if bLe lo k && bLe k hi then
        (match t.get k with
        | some v => some (some v)
        | none => none)
      else none := by
  rw [SST.rangeScan]
  set keys := sortB ((t.content.map Prod.fst).filter
    (fun k => bLe lo k && bLe k hi)) with hkeys
  have hperm := sortB_perm ((t.content.map Prod.fst).filter
    (fun k => bLe lo k && bLe k hi))
  have hkeysND : keys.Nodup :=
    (hperm.nodup_iff).mpr (List.Nodup.filter _ hND)
  rw [lookup_scan_keys keys t k hkeysND]
  have hmem : k ∈ keys ↔ (bLe lo k && bLe k hi) = true ∧
      k ∈ t.content.map Prod.fst := by
    rw [hperm.mem_iff, List.mem_filter]
    tauto
  by_cases hin : (bLe lo k && bLe k hi) = true
  · rw [if_pos hin]
    by_cases hc : k ∈ t.content.map Prod.fst
    · rw [if_pos (hmem.mpr ⟨hin, hc⟩)]
    · rw [if_neg (fun hm => hc (hmem.mp hm).2)]
      have hg : t.get k = none := by
        rw [SST.get, assocGet, lookup_none_of_not_mem hc]
      rw [hg]
  · rw [if_neg hin, if_neg (fun hm => hin (hmem.mp hm).1)]

/-- Folding `MemTable.add` over a pair list, at the entry-list level. -/
theorem foldAdd_entries (l : List (Key × Option Val)) (m : MemTable) :
    (l.foldl (fun m e => m.add e.1 e.2) m).entries =
      l.foldl (fun acc e => entriesAdd acc e.1 e.2) m.entries := by
  induction l generalizing m with
  | nil => rfl
  | cons e rest ih => rw [List.foldl_cons, List.foldl_cons, ih]; rfl

/-- Folding adds of a pair list with distinct keys: `lookup` sees the
list's binding when there is one, else the original map. -/
theorem lookup_foldAdd (l : List (Key × Option Val))
    (m0 : List (Key × Option Val)) (k : Key)
    (hND : (l.map Prod.fst).Nodup) :
    (l.foldl (fun acc e => entriesAdd acc e.1 e.2) m0).lookup k =
      match l.lookup k with
      | some v => some v
      | none => m0.lookup k := by
  induction l generalizing m0 with
  | nil => rfl
  | cons e rest ih =>
    rcases e with ⟨a, b⟩
    rw [List.map_cons] at hND
    rcases List.nodup_cons.mp hND with ⟨he, hrest⟩
    rw [List.foldl_cons]
    by_cases hk : k = a
    · subst hk
      rw [lookup_cons_self]
      rw [ih (entriesAdd m0 k b) hrest]
      rw [lookup_none_of_not_mem he, lookup_add_same]
    · rw [lookup_cons_ne b rest hk,
        ih (entriesAdd m0 a b) hrest]
      rcases List.lookup k rest with _ | w
      · rw [lookup_add_other m0 a k b hk]
      · rfl

/-- One table's compaction step: its non-null in-range bindings overwrite
the accumulator. -/
theorem compact_table_step (t : SST) (m0 : List (Key × Option Val))
    (k : Key) (hND : (t.content.map Prod.fst).Nodup)
    (hin : (bLe [] k && bLe k tildeKey) = true) :
    assocGet ((t.rangeScan [] tildeKey).foldl
      (fun acc e => entriesAdd acc e.1 e.2) m0) k =
      match t.get k with
      | some v => some v
      | none => assocGet m0 k := by
  have hscanND : ((t.rangeScan [] tildeKey).map Prod.fst).Nodup := by
    rw [SST.rangeScan]
    rw [scan_map_fst]
    refine List.Nodup.filter _ ?_
    exact ((sortB_perm _).nodup_iff).mpr (List.Nodup.filter _ hND)
  rw [assocGet, lookup_foldAdd _ _ _ hscanND,
    rangeScan_lookup t [] tildeKey k hND, if_pos hin]
  rcases hg : t.get k with _ | v
  · rw [assocGet]
  · rfl

/-- `probeTables` of a single table is that table's `get`. -/
theorem probeTables_single (t : SST) (k : Key) :
    probeTables [t] k = t.get k := by
  rw [probeTables]
  rcases t.get k with _ | v <;> rfl

/-- The merged table built by `_compact` answers `get` exactly like the
newest-to-oldest probe over the input tables, for keys in the scanned
`["", "~"]` range. -/
theorem merged_lookup (ts : List SST) (k : Key)
    (hND : ∀ t ∈ ts, (t.content.map Prod.fst).Nodup)
    (hin : (bLe [] k && bLe k tildeKey) = true) :
    assocGet ((ts.foldl (fun m t => (t.rangeScan [] tildeKey).foldl
      (fun m e => m.add e.1 e.2) m) (⟨[], none⟩ : MemTable)).entries) k =
      probeTables ts.reverse k := by
  induction ts using List.reverseRecOn with
  | nil => rfl
  | append_singleton ts t ih =>
    have hts : ∀ u ∈ ts, (u.content.map Prod.fst).Nodup :=
      fun u hu => hND u (List.mem_append_left _ hu)
    have ht : (t.content.map Prod.fst).Nodup :=
      hND t (List.mem_append_right _ (List.mem_singleton_self t))
    rw [List.foldl_append, List.foldl_cons, List.foldl_nil,
      List.reverse_append, List.reverse_singleton, List.singleton_append,
      probeTables]
    rw [foldAdd_entries, compact_table_step t _ k ht hin]
    rcases hg : t.get k with _ | v
    · rw [ih hts]
    · rfl

/-! ### The write path without a flush -/

/-- When the memtable is not full after the insert, `LSMTree.set` is just
the WAL append plus the memtable insert. -/
theorem lsmSet_no_flush (s : LSM) (k : Key) (v : Option Val)
    (h : (s.memtable.add k v).isFull = false) :
    lsmSet s k v =
      { walSet s k v with memtable := (walSet s k v).memtable.add k v } := by
  have h' : ((walSet s k v).memtable.add k v).isFull = false := h
  rw [lsmSet]
  simp only []
  rw [h']
  simp

theorem dictPop_lookup_none (d : List (Key × Option Val)) (k : Key) :
    (dictPop d k).lookup k = none := by
  induction d with
  | nil => rfl
  | cons e t ih =>
    rw [dictPop, List.filter_cons]
    by_cases he : e.1 = k
    · rw [if_neg (by simp [he])]
      exact ih
    · rw [if_pos (by simp [he])]
      rcases e with ⟨a, b⟩
      rw [lookup_cons_ne b _ (Ne.symm he)]
      exact ih

theorem lookup_append_single (l : List (Key × Option Val)) (k : Key)
    (v : Option Val) (h : l.lookup k = none) :
    (l ++ [(k, v)]).lookup k = some v := by
  induction l with
  | nil => exact lookup_cons_self k v []
  | cons e t ih =>
    rcases e with ⟨a, b⟩
    by_cases hk : k = a
    · subst hk
      rw [lookup_cons_self] at h
      cases h
    · rw [List.cons_append, lookup_cons_ne b _ hk]
      rw [lookup_cons_ne b t hk] at h
      exact ih h

/-- `data[k] = v` right after `data.pop(k, None)` leaves `k` bound to
`v`. -/
theorem dictSet_after_pop (d : List (Key × Option Val)) (k : Key)
    (v : Option Val) : (dictSet (dictPop d k) k v).lookup k = some v := by
  rw [dictSet, if_neg (by rw [dictPop_lookup_none]; simp)]
  exact lookup_append_single _ _ _ (dictPop_lookup_none d k)

/-! ## Claim theorems -/

/-- Claim C1 (code_bug): the spec says that at startup the mapping
observable through `get` equals the snapshot plus the replayed WAL, and
in particular that after `set("K", 7)` and an abort before `close`,
reopening yields `get("K") = 7`.  On the code, the recovered mapping
(`WALStore.data`, third conjunct of the replayed WAL shown in the second
conjunct) does hold `K ↦ 7`, but `LSMTree.__init__` never copies it into
the fresh memtable and `get` never consults it, so the reopened store
answers `None`. -/
theorem claim_c1_bug :
    lsmGet (lsmOpen c1Crashed) kK = none ∧
    c1Crashed.walFile = [⟨WalOp.setOp, kK, some 7⟩] ∧
    (lsmOpen c1Crashed).wal.data.lookup kK = some (some 7) := by decide

/-- Claim C9 (confirmed): after filling until compaction by set/close
rounds, overwriting `"a"` (last write 7) and flushing into
`sstable_1.db`, closing and reopening, `_load_sstables` sorts
`sstable_1.db` before `sstable_compacted.db`, so the compacted table gets
the higher read priority and `get("a")` returns the stale pre-overwrite
value 6 that the pre-close store did not return. -/
theorem claim_c9 :
    c9Reopened.sstables.map SST.name = [sstableName 1, compactedName] ∧
    lsmGet c9Final kA = some 7 ∧
    lsmGet c9Reopened kA = some 6 := by decide

/-- Claim C10 (confirmed): `LSMTree.delete` appends a `delete` WAL record
followed by a `set` record with a null value, leaves the `WALStore` map
binding the key to null rather than removing it, and a subsequent
checkpoint writes that null binding into `data.db`. -/
theorem claim_c10 (s : LSM) (k : Key)
    (h : (s.memtable.add k none).isFull = false) :
    (lsmDelete s k).disk.walFile =
        s.disk.walFile ++ [⟨WalOp.delOp, k, none⟩, ⟨WalOp.setOp, k, none⟩] ∧
    (lsmDelete s k).wal.data.lookup k = some none ∧
    (walCheckpoint (lsmDelete s k)).disk.dataFile =
        some ((lsmDelete s k).wal.data) := by
  have h' : ((walDelete s k).memtable.add k none).isFull = false := h
  rw [lsmDelete, lsmSet_no_flush (walDelete s k) k none h']
  refine ⟨?_, ?_, rfl⟩
  · show (walSet (walDelete s k) k none).disk.walFile = _
    rw [walSet, walDelete]
    simp
  · show (walSet (walDelete s k) k none).wal.data.lookup k = some none
    rw [walSet, walDelete]
    exact dictSet_after_pop s.wal.data k none

/-- Witness for C10 at a freshly opened store and the key `"a"`. -/
theorem claim_c10_witness :
    (lsmDelete lsmInit kA).disk.walFile =
        lsmInit.disk.walFile ++
          [⟨WalOp.delOp, kA, none⟩, ⟨WalOp.setOp, kA, none⟩] ∧
    (lsmDelete lsmInit kA).wal.data.lookup kA = some none ∧
    (walCheckpoint (lsmDelete lsmInit kA)).disk.dataFile =
        some ((lsmDelete lsmInit kA).wal.data) :=
  claim_c10 lsmInit kA (by decide)

/-- Claim C2 counterexample: after `set("a", 1)`, `close()` (which
flushes `a ↦ 1` to an SSTable) and `delete("a")`, the claim says `get`
reports not-found/null; the code returns 1, because the memtable
tombstone reads back as `None`, which `get` treats as a miss and falls
through to the SSTable. -/
theorem claim_c2_counterexample : lsmGet c2Run kA = some 1 := by decide

/-- Claim C2 (corrected): `get` returns the memtable value when the
stored value is non-null; on a memtable miss (no entry, or a null
tombstone — the two are indistinguishable to `MemTable.get`) it scans the
SSTables newest-first; and `set(K,V); delete(K)` yields `get(K) = None`
only when no SSTable holds a non-null value for `K` (here: none at all),
flushes permitting the older value to resurface otherwise. -/
theorem claim_c2_corrected :
    (∀ (s : LSM) (k : Key) (v : Val),
      s.memtable.get k = some v → lsmGet s k = some v) ∧
    (∀ (s : LSM) (k : Key), s.memtable.get k = none →
      lsmGet s k = probeTables s.sstables.reverse k) ∧
    (∀ (s : LSM) (k : Key) (v : Val),
      (s.memtable.add k (some v)).isFull = false →
      ((s.memtable.add k (some v)).add k none).isFull = false →
      probeTables s.sstables.reverse k = none →
      lsmGet (lsmDelete (lsmSet s k (some v)) k) k = none) := by
  refine ⟨?_, ?_, ?_⟩
  · intro s k v h
    rw [lsmGet, h]
  · intro s k h
    rw [lsmGet, h]
  · intro s k v h1 h2 h3
    rw [lsmSet_no_flush s k (some v) h1]
    set s1 : LSM :=
      { walSet s k (some v) with
        memtable := (walSet s k (some v)).memtable.add k (some v) } with hs1
    have h2' : ((walDelete s1 k).memtable.add k none).isFull = false := h2
    rw [lsmDelete, lsmSet_no_flush (walDelete s1 k) k none h2']
    rw [lsmGet]
    have hmget :
        ((walSet (walDelete s1 k) k none).memtable.add k none).get k = none := by
      show entriesGet (entriesAdd _ k none) k = none
      rw [entriesGet_add_same]
    rw [hmget]
    have hsst :
        ({ walSet (walDelete s1 k) k none with
            memtable :=
              (walSet (walDelete s1 k) k none).memtable.add k none} :
          LSM).sstables = s.sstables := rfl
    rw [hsst]
    exact h3

/-- Witness for the corrected C2 at a freshly opened store: deleting
right after setting, with no SSTables, does yield `None`. -/
theorem claim_c2_witness :
    lsmGet (lsmDelete (lsmSet lsmInit kA (some 1)) kA) kA = none :=
  claim_c2_corrected.2.2 lsmInit kA 1 (by decide) (by decide) (by decide)

/-- Claim C3 counterexample: on the same run as C2's (tombstone for `"a"`
in the memtable, `a ↦ 1` in the only SSTable), `range_query("a", "z")`
emits the tombstone pair `("a", None)` — the claim says tombstoned keys
are never emitted — and emits the key `"a"` twice, the claim saying each
key appears at most once. -/
theorem claim_c3_counterexample :
    lsmRange c2Run kA kZ = [(kA, none), (kA, some 1)] := by decide

/-- Claim C3 (corrected): `range_query` yields the in-range memtable
entries unfiltered and unrecorded in the seen set (tombstones included,
possibly duplicating SSTable keys), then the SSTable pairs newest-first
under the seen-keys set: within that SSTable part each key appears at
most once and no null value is emitted. -/
theorem claim_c3_corrected (s : LSM) (lo hi : Key)
    (hs : List.Pairwise (fun a b => bLt a.1 b.1 = true) s.memtable.entries) :
    lsmRange s lo hi =
        s.memtable.entries.filter (fun e => bLe lo e.1 && bLe e.1 hi)
          ++ tablesRange s.sstables.reverse lo hi [] ∧
    ((tablesRange s.sstables.reverse lo hi []).map Prod.fst).Nodup ∧
    ∀ p ∈ tablesRange s.sstables.reverse lo hi [], p.2 ≠ none := by
  refine ⟨?_, tablesRange_nodup _ _ _ _,
    fun p hp => (tablesRange_emitted _ _ _ _ _ hp).2⟩
  rw [lsmRange, MemTable.rangeScan, slice_eq_filter _ _ _ hs]

/-- Witness for the corrected C3 on the C2 run (memtable holds the single
tombstone entry, one SSTable). -/
theorem claim_c3_witness :
    lsmRange c2Run kA kZ =
        c2Run.memtable.entries.filter (fun e => bLe kA e.1 && bLe e.1 kZ)
          ++ tablesRange c2Run.sstables.reverse kA kZ [] ∧
    ((tablesRange c2Run.sstables.reverse kA kZ []).map Prod.fst).Nodup ∧
    ∀ p ∈ tablesRange c2Run.sstables.reverse kA kZ [], p.2 ≠ none :=
  claim_c3_corrected c2Run kA kZ (by decide)

/-- Claim C4 counterexample: a six-table state (as reached inside the
sixth flush, right where `_flush_memtable` calls `_compact`) whose tables
all hold the key `"\x7f"`.  Compaction scans only `["", "~"]`, so the key
is silently dropped: `get` answers 6 before the compaction and `None`
after it, while the claim says compaction preserves every key's newest
value and leaves `get` unchanged. -/
theorem claim_c4_counterexample :
    c4Before.sstables.length > 5 ∧
    lsmGet c4Before k7f = some 6 ∧
    lsmGet (lsmCompact c4Before) k7f = none := by decide

/-- Claim C4 (corrected): for keys up to `"~"` (the range `_compact`
scans), `get` is unchanged by compaction — tombstones are dropped from
the merged table rather than preserved, but since `get` already treats
stored nulls as misses at every level, dropping them cannot change any
`get` up to `"~"`; keys above `"~"` can be lost (see the
counterexample). -/
theorem claim_c4_corrected (s : LSM) (k : Key)
    (hND : ∀ t ∈ s.sstables, (t.content.map Prod.fst).Nodup)
    (hk : bLe k tildeKey = true) :
    lsmGet (lsmCompact s) k = lsmGet s k := by
  have hin : (bLe [] k && bLe k tildeKey) = true := by
    rw [bLe_nil k, hk]; rfl
  have hmemeq : (lsmCompact s).memtable = s.memtable := rfl
  rw [lsmGet, lsmGet, hmemeq]
  rcases hget : s.memtable.get k with _ | v
  · have h3 : (lsmCompact s).sstables.reverse =
        [⟨compactedName,
          (s.sstables.foldl (fun m t => (t.rangeScan [] tildeKey).foldl
            (fun m e => m.add e.1 e.2) m) (⟨[], none⟩ : MemTable)).entries⟩] :=
      rfl
    rw [h3, probeTables_single, SST.get]
    exact merged_lookup s.sstables k hND hin
  · rfl

/-- Witness for the corrected C4: a one-table state with `a ↦ 1`; `get`
answers 1 both before and after compacting. -/
theorem claim_c4_witness :
    lsmGet (lsmCompact c4WitState) kA = lsmGet c4WitState kA :=
  claim_c4_corrected c4WitState kA (by decide) (by decide)

/-- Claim C5 (code_bug): the claim (and spec §8) promise that after any
insertion sequence every non-root page holds at least
`⌈(order+1)/2⌉ − 1` keys.  Inserting `b"a"` … `b"j"` into a fresh index
of order 4 leaves page 7 — a non-root internal page (the root is 8) —
with a single key `b"i"`, below the threshold 2.  The slip is
`Page.is_overfull`'s `len(keys) >= order` (the spec standardises on the
strict `>` used by the in-memory tree, under which the split arithmetic
meets the threshold for every order). -/
theorem claim_c5_bug :
    c5Tree.order = 4 ∧ halfFullMin 4 = 2 ∧ c5Tree.rootPage = 8 ∧
    c5Tree.getPage 7 = Page.internal [strBytes "i"] [5, 6] := by decide

/-- Claim C6 (code_bug): deletion is claimed to repair an underflowing
leaf by redistribution or merging; in the source every such path calls
`can_lend` on a sibling, a method no class defines, so the delete dies
with `AttributeError`.  With order 3 and keys 1–4, `delete(4)` descends
past the separator 3 into the two-key right leaf `[3, 4]`, leaving `[3]`
— not the root, and below the half-filled bound `(3+1)//2 = 2` — so
`_handle_underflow` asks the left sibling `can_lend()` and raises; the
model returns the error, `get` beforehand confirming the key was
present. -/
theorem claim_c6_bug :
    c6Tree.get 10 4 = some 104 ∧
    c6Tree.delete 10 4 = Except.error PyErr.attributeError := ⟨rfl, rfl⟩

/-- Claim C7 counterexample: with `b"a" ↦ 1` present, the second insert
returns no `DuplicateKey` signal to the caller — `insert` returns `None`
on every path (first component `none`), merely leaving the index
unchanged — where the claim says the duplicate is surfaced. -/
theorem claim_c7_counterexample :
    c7Once.search kA = [1] ∧ c7Once.insert kA 9 = (none, c7Once) := by
  decide

/-- Claim C7 (corrected): reinserting a key that `search` finds is a
silent no-op: `add_record` returns `False`, nothing is written, nothing
is surfaced, and the whole index state — hence every later `search` and
`range_query` — is unchanged. -/
theorem claim_c7_corrected (s : Index) (k : Key) (v : Nat)
    (h : s.search k ≠ []) : s.insert k v = (none, s) := by
  rw [Index.search] at h
  rw [Index.insert]
  rcases hf : findLeafP s s.numPages k s.rootPage [] with ⟨⟨lid, pg⟩, path⟩
  rw [hf] at h
  simp only [] at h ⊢
  cases pg with
  | internal ks cs => rfl
  | leaf ks vs nx =>
    simp only [Page.getValues] at h
    simp only [] at h ⊢
    rcases hg : ks.get? (bisectLeft ks k) with _ | k'
    · rw [hg] at h
      exact absurd rfl h
    · rw [hg] at h
      simp only [] at h
      by_cases hk : k' = k
      · simp only [addRecord, hg, if_pos hk]
      · rw [if_neg hk] at h
        exact absurd rfl h

/-- Witness for the corrected C7: reinserting `b"a"` with a different
record ID changes nothing. -/
theorem claim_c7_witness : c7Once.insert kA 5 = (none, c7Once) :=
  claim_c7_corrected c7Once kA 5 (by decide)

/-! ### Page codec roundtrip -/

theorem readU16_u16le (n : Nat) (r : List Nat) (h : n < 2 ^ 16) :
    readU16 (u16le n ++ r) = (n, r) := by
  have harith : n % 256 + 256 * (n / 256 % 256) = n := by omega
  simp [u16le, readU16, readByte, harith]

theorem readU32_u32le (n : Nat) (r : List Nat) (h : n < 2 ^ 32) :
    readU32 (u32le n ++ r) = (n, r) := by
  have harith : n % 256 + 256 * (n / 256 % 256) +
      65536 * (n / 65536 % 256) + 16777216 * (n / 16777216 % 256) = n := by
    omega
  simp [u32le, readU32, readByte]
  omega

/-- Parsing back a serialized entry section recovers the zipped keys and
u32 fields and leaves the remainder untouched. -/
theorem parseKVs_serializeEntries (ks : List Key) (vs : List Nat)
    (r : List Nat) (hlen : ks.length = vs.length)
    (hk : ∀ k ∈ ks, k.length < 2 ^ 16) (hv : ∀ v ∈ vs, v < 2 ^ 32) :
    parseKVs ks.length (serializeEntries ks vs ++ r) = (ks, vs, r) := by
  induction ks generalizing vs r with
  | nil =>
    cases vs with
    | nil => rfl
    | cons v vs => simp at hlen
  | cons k ks ih =>
    cases vs with
    | nil => simp at hlen
    | cons v vs =>
      rw [List.length_cons, serializeEntries, parseKVs]
      simp only [List.append_assoc]
      rw [readU16_u16le k.length _ (hk k (List.mem_cons_self k ks))]
      simp only [List.take_left, List.drop_left]
      rw [readU32_u32le v _ (hv v (List.mem_cons_self v vs))]
      simp only []
      rw [ih vs r (by simpa using hlen)
        (fun x hx => hk x (List.mem_cons_of_mem k hx))
        (fun x hx => hv x (List.mem_cons_of_mem v hx))]

theorem getLastD_concat (l : List Nat) (a d : Nat) :
    (l ++ [a]).getLastD d = a := by
  induction l generalizing d with
  | nil => rfl
  | cons b t ih =>
    rw [List.cons_append, List.getLastD_cons, ih]

/-- Claim C8 counterexample: the claim says every well-formed page
serializes to exactly 4096 bytes, but `serialize` emits only the header
plus entries — an empty leaf page serializes to 7 bytes (the zero padding
to 4096 is applied later, by `_write_page`'s `ljust`). -/
theorem claim_c8_counterexample :
    (Page.serialize (Page.leaf [] [] 0)).length = 7 := by decide

/-- Reading one byte off an explicit cons. -/
theorem readByte_cons (b : Nat) (l : List Nat) : readByte (b :: l) = (b, l) := rfl

/-- Claim C8 (corrected): `serialize` emits the unpadded encoding (the
pager pads to 4096 on write; no overflow check exists anywhere), and
`deserialize(serialize(p) ++ padding) = p` for every well-formed page
except a zero-key internal page, whose lone trailing child pointer
`deserialize` does not read back. -/
theorem claim_c8_corrected (p : Page) (pad : List Nat) (hwf : PageWF p)
    (hne : ∀ ks cs, p = Page.internal ks cs → ks ≠ []) :
    deserializePage (p.serialize ++ pad) = p := by
  cases p with
  | leaf ks vs nx =>
    rcases hwf with ⟨hlen, hkc, hnx, hk, hv⟩
    rw [Page.serialize, deserializePage]
    simp only [List.cons_append, List.append_assoc, List.nil_append, readByte_cons]
    rw [readU16_u16le ks.length _ hkc]
    simp only []
    rw [readU32_u32le nx _ hnx]
    simp only []
    rw [parseKVs_serializeEntries ks vs pad hlen hk hv]
    simp only []
    rw [if_pos (by simp)]
  | internal ks cs =>
    rcases hwf with ⟨hlen, hkc, hk, hv⟩
    have hksne : ks ≠ [] := hne ks cs rfl
    induction cs using List.reverseRecOn with
    | nil => simp at hlen
    | append_singleton cs' c ihc =>
      clear ihc
      have hc32 : c < 2 ^ 32 := hv c (by simp)
      have hcs'32 : ∀ x ∈ cs', x < 2 ^ 32 :=
        fun x hx => hv x (by simp [hx])
      have hlen' : cs'.length = ks.length := by
        rw [List.length_append] at hlen
        simpa using hlen
      rw [Page.serialize]
      rw [if_neg (by simp), List.dropLast_concat, getLastD_concat]
      rw [deserializePage]
      simp only [List.cons_append, List.append_assoc, List.nil_append, readByte_cons]
      rw [readU16_u16le ks.length _ hkc]
      simp only []
      rw [readU32_u32le 0 _ (by norm_num)]
      simp only []
      rw [parseKVs_serializeEntries ks cs' (u32le c ++ pad) hlen'.symm hk
        hcs'32]
      simp only []
      rw [if_neg (by simp)]
      rw [if_pos (Nat.pos_of_ne_zero
        (fun h0 => hksne (List.eq_nil_of_length_eq_zero h0)))]
      rw [readU32_u32le c pad hc32]

/-- Witness for the corrected C8: a two-entry leaf page roundtrips
through the codec, zero padding included. -/
theorem claim_c8_witness :
    deserializePage (c8WitPage.serialize ++ [0, 0, 0]) = c8WitPage :=
  claim_c8_corrected c8WitPage [0, 0, 0]
    (by refine ⟨rfl, by norm_num, by norm_num, ?_, ?_⟩ <;> decide)
    (by intro ks cs hc; simp [c8WitPage] at hc)

end ToyDB
